import Mathlib

/-!
Verification of the streaming protocol normalization engine of the `mo`
gateway (Go sources under `internal/provider/zlm` and `internal/server`).

Strings are shallowly embedded as `List Char` (the rune sequence a Go
`string` denotes for the operations used here).  Each Go regular expression
used by the formatter is a fixed pattern; it is embedded as a dedicated
matching function with Go/RE2 leftmost-first semantics (greedy `*` prefers
longer, non-greedy `*?`/`+?` prefers shorter, `.` does not match newline),
and `ReplaceAllString` as a left-to-right scan replacing non-overlapping
matches.
-/

namespace Mo

abbrev Str := List Char

/-- Rune sequence of a Lean string literal (Go string). -/
def str (s : String) : Str := s.data

/-- Go `strings.Contains s pat`. -/
def hasSub (s pat : Str) : Bool :=
  match s with
  | [] => pat.isPrefixOf ([] : Str)
  | _ :: tl => pat.isPrefixOf s || hasSub tl pat

/-- Go `strings.HasPrefix`. -/
def hasPre (s pat : Str) : Bool := pat.isPrefixOf s

/-- Fuel-driven worker for `replaceAllLit`. -/
def replaceAllLitF (pat repl : Str) : Nat → Str → Str
  | 0, s => s
  | Nat.succ fu, s =>
    match s with
    | [] => []
    | c :: tl =>
      if pat ≠ [] ∧ pat.isPrefixOf s then
        repl ++ replaceAllLitF pat repl fu (s.drop pat.length)
      else
        c :: replaceAllLitF pat repl fu tl

/-- Go `strings.ReplaceAll s pat repl` (non-empty `pat`): leftmost,
non-overlapping, continue after each replacement. -/
def replaceAllLit (pat repl s : Str) : Str :=
  replaceAllLitF pat repl s.length s

/-- Fuel-driven worker for `replaceAllM`.  `tm s` attempts to match the
pattern at the start of `s`, returning the rest after the match. -/
def replaceAllMF (tm : Str → Option Str) (repl : Str) : Nat → Str → Str
  | 0, s => s
  | Nat.succ fu, s =>
    match s with
    | [] => []
    | c :: tl =>
      match tm s with
      | some rest =>
        if rest.length < s.length then repl ++ replaceAllMF tm repl fu rest
        else c :: replaceAllMF tm repl fu tl
      | none => c :: replaceAllMF tm repl fu tl

/-- `Regexp.ReplaceAllString` for a pattern that never matches the empty
string: scan left to right, replace each leftmost match, continue after it. -/
def replaceAllM (tm : Str → Option Str) (repl : Str) (s : Str) : Str :=
  replaceAllMF tm repl s.length s

/-- Drop a literal prefix, or fail. -/
def dropLit (lit s : Str) : Option Str :=
  if lit.isPrefixOf s then some (s.drop lit.length) else none

/-- Consume a (possibly empty) run of newlines: greedy `\n*`. -/
def dropNL (s : Str) : Str := s.dropWhile (fun c => c = '\n')

/-- Non-greedy `.*?` (or `.+?` when `minOne`) followed by the literal
`close`: consume the fewest non-newline characters such that `close`
follows, returning (consumed, rest-after-close). -/
def scanToLit (close : Str) (minOne : Bool) : Str → Option (Str × Str)
  | [] => none
  | c :: tl =>
    if ¬ minOne ∧ close.isPrefixOf (c :: tl) then
      some ([], (c :: tl).drop close.length)
    else if c = '\n' then none
    else
      match scanToLit close false tl with
      | some (consumed, rest) => some (c :: consumed, rest)
      | none => none

/-- Greedy `.*` followed by the literal `close`: consume the most
non-newline characters such that `close` follows (the last occurrence of
`close` inside the current newline-free stretch), returning the rest after
`close`. -/
def scanToLitLast (close : Str) : Str → Option Str
  | [] => none
  | c :: tl =>
    let later := if c = '\n' then none else scanToLitLast close tl
    match later with
    | some r => some r
    | none =>
      if close.isPrefixOf (c :: tl) then some ((c :: tl).drop close.length)
      else none

/-- Greedy `[^x]*` up to the mandatory character `x`: split at the first
`x` and consume it, or fail when `x` is absent. -/
def spanThrough (x : Char) (s : Str) : Option (Str × Str) :=
  let a := s.takeWhile (fun c => c ≠ x)
  match s.drop a.length with
  | [] => none
  | _ :: tl => some (a, tl)

/-- Go `\s` character class: `[\t\n\f\r ]`. -/
def isGoSpace (c : Char) : Bool :=
  c = ' ' ∨ c = '\t' ∨ c = '\n' ∨ c = '\x0c' ∨ c = '\r'

/- Matchers for the formatter's pre-compiled patterns.  Each takes the text
at the candidate match position and yields the rest after the match. -/

/-- `\n*<summary>.*?</summary>\n*` (`reSummary`). -/
def trySummary (s : Str) : Option Str := do
  let s1 ← dropLit (str "<summary>") (dropNL s)
  let (_, s2) ← scanToLit (str "</summary>") false s1
  pure (dropNL s2)

/-- `<details[^>]*>\n*` (`reDetailsOpen`). -/
def tryDetailsOpen (s : Str) : Option Str := do
  let s1 ← dropLit (str "<details") s
  let (_, s2) ← spanThrough '>' s1
  pure (dropNL s2)

/-- `\n*</details>` (`reDetailsClose`). -/
def tryDetailsClose (s : Str) : Option Str :=
  dropLit (str "</details>") (dropNL s)

/-- `\n>\s?` (`reQuotePrefix` of the source). -/
def tryQuoteRule (s : Str) : Option Str :=
  match s with
  | '\n' :: '>' :: rest =>
    match rest with
    | c :: tl => if isGoSpace c then some tl else some rest
    | [] => some []
  | _ => none

/-- `<reasoning>\n*` (`reReasoningOpen`). -/
def tryReasoningOpen (s : Str) : Option Str := do
  let s1 ← dropLit (str "<reasoning>") s
  pure (dropNL s1)

/-- `\n*</reasoning>` (`reReasoningClose`). -/
def tryReasoningClose (s : Str) : Option Str :=
  dropLit (str "</reasoning>") (dropNL s)

/-- `\n*<glm_block[^>]*>\{"type": "mcp", "data": \{"metadata": \{`
(`reGlmBlockStart`). -/
def tryGlmStart (s : Str) : Option Str := do
  let s1 ← dropLit (str "<glm_block") (dropNL s)
  let (_, s2) ← spanThrough '>' s1
  dropLit (str "\x7b\x22type\x22: \x22mcp\x22, \x22data\x22: \x7b\x22metadata\x22: \x7b") s2

/-- `[}"], "result": "".*</glm_block>` (`reGlmBlockEnd`). -/
def tryGlmEnd (s : Str) : Option Str :=
  match s with
  | c :: tl =>
    if c = '\x7d' ∨ c = '\x22' then do
      let s1 ← dropLit (str ", \x22result\x22: \x22\x22") tl
      scanToLitLast (str "</glm_block>") s1
    else none
  | [] => none

/-- `null, "display_result": "".*</glm_block>` (`reGlmBlockClose`). -/
def tryGlmClose (s : Str) : Option Str := do
  let s1 ← dropLit (str "null, \x22display_result\x22: \x22\x22") s
  scanToLitLast (str "</glm_block>") s1

/- The formatter's replacement passes, one per `ReplaceAllString` call. -/

def applySummary (repl s : Str) : Str := replaceAllM trySummary repl s
def applyDetailsOpen (s : Str) : Str :=
  replaceAllM tryDetailsOpen (str "<reasoning>\n\n") s
def applyDetailsClose (s : Str) : Str :=
  replaceAllM tryDetailsClose (str "\n\n</reasoning>") s
def applyQuoteRule (s : Str) : Str := replaceAllM tryQuoteRule (str "\n") s
def applyReasoningOpen (s : Str) : Str := replaceAllM tryReasoningOpen [] s
def applyReasoningClose (repl s : Str) : Str :=
  replaceAllM tryReasoningClose repl s
def applyGlmStart (s : Str) : Str := replaceAllM tryGlmStart (str "\x7b") s
def applyGlmEnd (s : Str) : Str := replaceAllM tryGlmEnd [] s
def applyGlmClose (s : Str) : Str := replaceAllM tryGlmClose (str "\x22\x7d") s

/-! ## Upstream events and the per-request Formatter
Embedding of `domain.ZaiResponse` / `domain.ZaiResponseData` and of
`zlm.Formatter.Format` / `zlm.Formatter.formatThinking`
(`internal/provider/zlm/formatter.go`). -/

/-- `domain.ZaiResponseData`. -/
structure ZaiData where
  phase : Str
  deltaContent : Str
  editContent : Str
  editIndex : Option Int
  done : Bool
  deriving DecidableEq, Repr

/-- `domain.ZaiResponse` (the `data` pointer may be nil). -/
structure ZaiResponse where
  data : Option ZaiData
  deriving DecidableEq, Repr

/-- The configuration the formatter reads (`cfg.Model.ThinkMode`). -/
structure Config where
  thinkMode : Str
  deriving DecidableEq, Repr

/-- A normalized delta: the source returns a `map[string]any` of one of
three shapes, `{role, reasoning_content}`, `{tool_call}` or
`{role, content}` (role always `"assistant"`); the shapes are disjoint, so
the map is embedded as a tagged variant. -/
inductive Delta where
  | reasoningD (c : Str)
  | toolCallD (c : Str)
  | contentD (c : Str)
  deriving DecidableEq, Repr

/-- `Formatter.formatThinking` (formatter.go): thinking/answer markup
normalization followed by the think-mode transform. -/
def formatThinking (cfg : Config) (phase content : Str) : Str :=
  if ¬ (phase = str "thinking" ∨
        (phase = str "answer" ∧ hasSub content (str "summary>") = true)) then
    content
  else
    let c := replaceAllLit (str "</thinking>") [] content
    let c := replaceAllLit (str "<Full>") [] c
    let c := replaceAllLit (str "</Full>") [] c
    let c := if phase = str "thinking" then applySummary (str "\n\n") c else c
    let c := applyDetailsOpen c
    let c := applyDetailsClose c
    if cfg.thinkMode = str "reasoning" then
      let c := if phase = str "thinking" then applyQuoteRule c else c
      applySummary [] c
    else if cfg.thinkMode = str "think" then
      let c := if phase = str "thinking" then applyQuoteRule c else c
      let c := applySummary [] c
      let c := replaceAllLit (str "<reasoning>") (str "<think>") c
      replaceAllLit (str "</reasoning>") (str "</think>") c
    else if cfg.thinkMode = str "strip" then
      let c := applySummary [] c
      let c := applyReasoningOpen c
      applyReasoningClose [] c
    else
      applyReasoningClose (str "</reasoning>\n\n") c

/-- `Formatter.Format`: one step of the per-request phase normalizer.
Takes the formatter's `prevPhase` field and the incoming event; returns the
emitted delta (if any) and the new `prevPhase`. -/
def format (cfg : Config) (prev : Str) (resp : ZaiResponse) :
    Option Delta × Str :=
  match resp.data with
  | none => (none, prev)
  | some d =>
    let phase0 := if d.phase = [] then str "other" else d.phase
    let content0 := if d.deltaContent = [] then d.editContent else d.deltaContent
    if content0 = [] then (none, prev)
    else
      let pc : Str × Str :=
        if phase0 = str "tool_call" then
          (phase0, applyGlmEnd (applyGlmStart content0))
        else if phase0 = str "other" ∧ prev = str "tool_call" ∧
                hasSub content0 (str "glm_block") = true then
          (str "tool_call", applyGlmClose content0)
        else (phase0, content0)
      let phase := pc.1
      let content := formatThinking cfg phase pc.2
      let out : Option Delta :=
        if phase = str "thinking" ∧ cfg.thinkMode = str "reasoning" then
          some (Delta.reasoningD content)
        else if phase = str "tool_call" then
          some (Delta.toolCallD content)
        else if content ≠ [] then
          some (Delta.contentD content)
        else none
      (out, phase)

/-- `NewFormatter` initializes `prevPhase` to `"thinking"`. -/
def initPrev : Str := str "thinking"

/-! ## The glm_block tool-call pattern
`glmBlockRegex = <glm_block[^>]*tool_call_name="([^"]+)"[^>]*>(.+?)</glm_block>`.
The first `[^>]*` is greedy and is followed by a literal, so the engine
prefers the literal occurrence reached with the longest `[^>]*`; on failure
it backtracks to earlier occurrences, and beyond a `>` no further
occurrence is reachable. -/

/-- The literal `tool_call_name="` that ends the first `[^>]*`. -/
def tcnLit : Str := str "tool_call_name=\x22"

/-- Continuation of `glmBlockRegex` after `tool_call_name="`:
`([^"]+)"` then `[^>]*>` then `(.+?)</glm_block>`.  Returns the two
capture groups (name, payload) and the rest after the whole match. -/
def glmCont (s : Str) : Option (Str × Str × Str) := do
  let (name, s1) ← spanThrough '\x22' s
  if name = [] then none else
  let (_, s2) ← spanThrough '>' s1
  let (payload, s3) ← scanToLit (str "</glm_block>") true s2
  pure (name, payload, s3)

/-- Backtracking choice of where `tool_call_name="` starts after
`<glm_block`: prefer the latest position reachable through `[^>]*` whose
continuation succeeds. -/
def glmAttrScan : Str → Option (Str × Str × Str)
  | [] => none
  | c :: tl =>
    let later := if c = '>' then none else glmAttrScan tl
    match later with
    | some r => some r
    | none =>
      match dropLit tcnLit (c :: tl) with
      | some rest => glmCont rest
      | none => none

/-- Match `glmBlockRegex` at the start of `s`. -/
def glmMatchAt (s : Str) : Option (Str × Str × Str) := do
  let s1 ← dropLit (str "<glm_block") s
  glmAttrScan s1

/-- Leftmost `glmBlockRegex` match: returns the text before the match, the
two capture groups and the rest after the match
(`Regexp.FindStringSubmatch`). -/
def glmFindSplit : Str → Option (Str × Str × Str × Str)
  | [] => none
  | c :: tl =>
    match glmMatchAt (c :: tl) with
    | some (name, payload, rest) => some ([], name, payload, rest)
    | none =>
      match glmFindSplit tl with
      | some (pre, name, payload, rest) => some (c :: pre, name, payload, rest)
      | none => none

/-- Fuel-driven worker for `glmReplaceAll`. -/
def glmReplaceAllF : Nat → Str → Str
  | 0, s => s
  | Nat.succ fu, s =>
    match glmFindSplit s with
    | some (pre, _, _, rest) =>
      if rest.length < s.length then pre ++ glmReplaceAllF fu rest else s
    | none => s

/-- `glmBlockRegex.ReplaceAllString s ""`. -/
def glmReplaceAll (s : Str) : Str := glmReplaceAllF s.length s

/-- `zlm.StripToolCallBlock`. -/
def stripToolCallBlock (content : Str) : Str :=
  if ¬ hasSub content (str "glm_block") = true then content
  else glmReplaceAll content

/-! ## JSON decoding
A model of `encoding/json.Unmarshal` for the two target shapes the core
uses: the mcp wrapper struct inside `ParseToolCall` and
`domain.ZaiResponse` inside `ParseSSEStream`.  The parser follows the JSON
grammar; field names are matched exactly (the wire format uses the exact
lower-case keys), unknown fields are skipped, later duplicate keys
overwrite earlier ones, `null` leaves a field at its zero value, and a
type-mismatched field makes the whole decode fail. -/

inductive JVal where
  | jnull
  | jbool (b : Bool)
  | jnum (raw : Str)
  | jstr (s : Str)
  | jarr (xs : List JVal)
  | jobj (fs : List (Str × JVal))
  deriving Repr

/-- JSON whitespace. -/
def isJsonWs (c : Char) : Bool :=
  c = ' ' ∨ c = '\t' ∨ c = '\n' ∨ c = '\r'

def skipWs (s : Str) : Str := s.dropWhile isJsonWs

/-- Hex digit test. -/
def isHexDig (c : Char) : Bool :=
  c.isDigit ∨ ('a' ≤ c ∧ c ≤ 'f') ∨ ('A' ≤ c ∧ c ≤ 'F')

/-- Numeric value of a hex digit. -/
def hexVal (c : Char) : Nat :=
  if c.isDigit then c.toNat - 48
  else if 'a' ≤ c ∧ c ≤ 'f' then c.toNat - 87
  else if 'A' ≤ c ∧ c ≤ 'F' then c.toNat - 55
  else 0

/-- JSON string body after the opening quote, with escape sequences. -/
def parseJStr : Str → Option (Str × Str)
  | [] => none
  | '\x22' :: tl => some ([], tl)
  | '\x5c' :: e :: tl =>
    match e with
    | '\x22' => (parseJStr tl).map (fun p => ('\x22' :: p.1, p.2))
    | '\x5c' => (parseJStr tl).map (fun p => ('\x5c' :: p.1, p.2))
    | '/' => (parseJStr tl).map (fun p => ('/' :: p.1, p.2))
    | 'b' => (parseJStr tl).map (fun p => ('\x08' :: p.1, p.2))
    | 'f' => (parseJStr tl).map (fun p => ('\x0c' :: p.1, p.2))
    | 'n' => (parseJStr tl).map (fun p => ('\n' :: p.1, p.2))
    | 'r' => (parseJStr tl).map (fun p => ('\r' :: p.1, p.2))
    | 't' => (parseJStr tl).map (fun p => ('\t' :: p.1, p.2))
    | 'u' =>
      match tl with
      | h1 :: h2 :: h3 :: h4 :: tl4 =>
        if isHexDig h1 ∧ isHexDig h2 ∧ isHexDig h3 ∧ isHexDig h4 then
          (parseJStr tl4).map
            (fun p => (Char.ofNat (hexVal h1 * 4096 + hexVal h2 * 256 +
              hexVal h3 * 16 + hexVal h4) :: p.1, p.2))
        else none
      | _ => none
    | _ => none
  | c :: tl => (parseJStr tl).map (fun p => (c :: p.1, p.2))

/-- JSON number (raw characters), per the JSON grammar:
`-? (0 | [1-9][0-9]*) (. [0-9]+)? ([eE][+-]?[0-9]+)?`. -/
def parseJNum (s : Str) : Option (Str × Str) :=
  let (neg, s1) : Str × Str :=
    match s with
    | '-' :: tl => (['-'], tl)
    | _ => ([], s)
  match s1 with
  | [] => none
  | c :: _ =>
    if ¬ c.isDigit then none
    else
      let intPart := s1.takeWhile Char.isDigit
      if c = '0' ∧ intPart.length ≠ 1 then none
      else
        let s2 := s1.drop intPart.length
        let (frac, s3) : Str × Str :=
          match s2 with
          | '.' :: tl =>
            let ds := tl.takeWhile Char.isDigit
            if ds = [] then (['!'], s2) else ('.' :: ds, tl.drop ds.length)
          | _ => ([], s2)
        if frac = ['!'] then none
        else
          let (ex, s4) : Str × Str :=
            match s3 with
            | e :: tl =>
              if e = 'e' ∨ e = 'E' then
                let (sg, tl2) : Str × Str :=
                  match tl with
                  | g :: tl3 => if g = '+' ∨ g = '-' then ([g], tl3) else ([], tl)
                  | [] => ([], tl)
                let ds := tl2.takeWhile Char.isDigit
                if ds = [] then (['!'], s3) else (e :: (sg ++ ds), tl2.drop ds.length)
              else ([], s3)
            | [] => ([], s3)
          if ex = ['!'] then none
          else some (neg ++ intPart ++ frac ++ ex, s4)

mutual

/-- JSON value (fuel-driven; the callers pass fuel exceeding any possible
nesting depth). -/
def parseJVal : Nat → Str → Option (JVal × Str)
  | 0, _ => none
  | Nat.succ fu, s =>
    match skipWs s with
    | [] => none
    | c :: tl =>
      if c = '\x22' then (parseJStr tl).map (fun p => (JVal.jstr p.1, p.2))
      else if c = '\x7b' then
        match skipWs tl with
        | '\x7d' :: tl2 => some (JVal.jobj [], tl2)
        | s2 => (parseJFields fu s2).map (fun p => (JVal.jobj p.1, p.2))
      else if c = '[' then
        match skipWs tl with
        | ']' :: tl2 => some (JVal.jarr [], tl2)
        | s2 => (parseJElems fu s2).map (fun p => (JVal.jarr p.1, p.2))
      else if (str "true").isPrefixOf (c :: tl) then
        some (JVal.jbool true, (c :: tl).drop 4)
      else if (str "false").isPrefixOf (c :: tl) then
        some (JVal.jbool false, (c :: tl).drop 5)
      else if (str "null").isPrefixOf (c :: tl) then
        some (JVal.jnull, (c :: tl).drop 4)
      else (parseJNum (c :: tl)).map (fun p => (JVal.jnum p.1, p.2))

/-- `"key": value` pairs of an object body, up to the closing brace. -/
def parseJFields : Nat → Str → Option (List (Str × JVal) × Str)
  | 0, _ => none
  | Nat.succ fu, s =>
    match skipWs s with
    | '\x22' :: tl => do
      let (key, s1) ← parseJStr tl
      match skipWs s1 with
      | ':' :: s2 => do
        let (v, s3) ← parseJVal fu s2
        match skipWs s3 with
        | ',' :: s4 => do
          let (fs, s5) ← parseJFields fu s4
          pure ((key, v) :: fs, s5)
        | '\x7d' :: s4 => pure ([(key, v)], s4)
        | _ => none
      | _ => none
    | _ => none

/-- Elements of an array body, up to the closing bracket. -/
def parseJElems : Nat → Str → Option (List JVal × Str)
  | 0, _ => none
  | Nat.succ fu, s => do
    let (v, s1) ← parseJVal fu s
    match skipWs s1 with
    | ',' :: s2 => do
      let (xs, s3) ← parseJElems fu s2
      pure (v :: xs, s3)
    | ']' :: s2 => pure ([v], s2)
    | _ => none

end

/-- Decode a complete JSON document: one value, surrounded only by
whitespace (`json.Unmarshal` rejects trailing data). -/
def parseJsonDoc (s : Str) : Option JVal := do
  let (v, rest) ← parseJVal (s.length + 2) s
  if skipWs rest = [] then pure v else none

/-- Read a string-typed struct field from a decoded JSON field value:
a JSON string sets it, `null` keeps the current value, anything else is a
type mismatch. -/
def setStrField (cur : Str) : JVal → Option Str
  | JVal.jstr v => some v
  | JVal.jnull => some cur
  | _ => none

/-- The `metadata` object inside the mcp wrapper of `ParseToolCall`. -/
structure McpMeta where
  id : Str
  name : Str
  arguments : Str
  deriving DecidableEq, Repr

/-- Decode the fields of the `metadata` object into the current struct
value (fields present overwrite, unknown fields are skipped). -/
def decodeMeta (start : McpMeta) (fs : List (Str × JVal)) : Option McpMeta :=
  fs.foldlM
    (fun (m : McpMeta) kv =>
      if kv.1 = str "id" then (setStrField m.id kv.2).map (fun v => { m with id := v })
      else if kv.1 = str "name" then (setStrField m.name kv.2).map (fun v => { m with name := v })
      else if kv.1 = str "arguments" then (setStrField m.arguments kv.2).map (fun v => { m with arguments := v })
      else some m)
    start

/-- Decode the wrapper struct
`{type string; data struct {metadata struct {id, name, arguments string}}}`
from the payload of a glm_block (`json.Unmarshal` inside `ParseToolCall`).
The top level must be a JSON object (or `null`, leaving zero values). -/
def decodeWrapper (payload : Str) : Option McpMeta := do
  let v ← parseJsonDoc payload
  match v with
  | JVal.jnull => pure ⟨[], [], []⟩
  | JVal.jobj fs =>
    fs.foldlM
      (fun (m : McpMeta) kv =>
        if kv.1 = str "type" then (setStrField [] kv.2).map (fun _ => m)
        else if kv.1 = str "data" then
          match kv.2 with
          | JVal.jnull => some m
          | JVal.jobj dfs =>
            dfs.foldlM
              (fun (m2 : McpMeta) dkv =>
                if dkv.1 = str "metadata" then
                  match dkv.2 with
                  | JVal.jnull => some m2
                  | JVal.jobj mfs => decodeMeta m2 mfs
                  | _ => none
                else some m2)
              m
          | _ => none
        else some m)
      ⟨[], [], []⟩
  | _ => none

/-- `domain.ToolCall` with its nested `domain.FunctionCall`. -/
structure ToolCall where
  id : Str
  type' : Str
  name : Str
  arguments : Str
  deriving DecidableEq, Repr

/-- Deterministic model of `utils.GenerateID` (the source calls
`uuid.New().String()`, an external randomness source; a fixed placeholder
uuid string stands in for the random draw). -/
def genID : Str := str "00000000-0000-0000-0000-000000000000"

/-- `zlm.ParseToolCall`: find the leftmost `glmBlockRegex` match, decode
the payload as the mcp wrapper, and build the ToolCall with the name taken
from the tag attribute, defaulting `id` and `arguments`. -/
def parseToolCall (content : Str) : Option ToolCall :=
  match glmFindSplit content with
  | none => none
  | some (_, name, payload, _) =>
    match decodeWrapper payload with
    | none => none
    | some meta =>
      let callID := if meta.id = [] then str "call_" ++ genID.take 10 else meta.id
      let args := if meta.arguments = [] then str "\x7b\x7d" else meta.arguments
      some { id := callID, type' := str "function", name := name, arguments := args }

/-! ## Event Ingestor (`zlm.ParseSSEStream`)
The scanner frames the response body into lines; the loop keeps only lines
with the `data: ` prefix, skips the `[DONE]` sentinel (the loop `continue`s
on it) and lines whose payload fails to decode, and emits every decoded
`ZaiResponse`.  The model consumes the framed line sequence. -/

/-- Go `unicode.IsSpace` for the code points `strings.TrimSpace` can meet
here (ASCII white space; the full Unicode set also has NEL/NBSP etc.,
irrelevant for the `[DONE]` comparison). -/
def isTrimSpace (c : Char) : Bool :=
  c = ' ' ∨ c = '\t' ∨ c = '\n' ∨ c = '\x0b' ∨ c = '\x0c' ∨ c = '\r'

/-- Go `strings.TrimSpace`. -/
def trimSpace (s : Str) : Str :=
  ((s.dropWhile isTrimSpace).reverse.dropWhile isTrimSpace).reverse

/-- Read a bool-typed struct field: JSON bool sets it, `null` keeps it. -/
def setBoolField (cur : Bool) : JVal → Option Bool
  | JVal.jbool b => some b
  | JVal.jnull => some cur
  | _ => none

/-- Read a `*int`-typed struct field: an integral JSON number sets it,
`null` keeps it. -/
def setIntPtrField (cur : Option Int) : JVal → Option (Option Int)
  | JVal.jnum raw =>
    match raw with
    | '-' :: ds => if ds ≠ [] ∧ ds.all Char.isDigit then
        some (some (-(Int.ofNat (Nat.ofDigits 10 (ds.map (fun c => c.toNat - 48)).reverse)))) else none
    | ds => if ds ≠ [] ∧ ds.all Char.isDigit then
        some (some (Int.ofNat (Nat.ofDigits 10 (ds.map (fun c => c.toNat - 48)).reverse))) else none
  | JVal.jnull => some cur
  | _ => none

/-- Decode the fields of a `domain.ZaiResponseData` object. -/
def decodeZaiData (start : ZaiData) (fs : List (Str × JVal)) : Option ZaiData :=
  fs.foldlM
    (fun (d : ZaiData) kv =>
      if kv.1 = str "phase" then (setStrField d.phase kv.2).map (fun v => { d with phase := v })
      else if kv.1 = str "delta_content" then (setStrField d.deltaContent kv.2).map (fun v => { d with deltaContent := v })
      else if kv.1 = str "edit_content" then (setStrField d.editContent kv.2).map (fun v => { d with editContent := v })
      else if kv.1 = str "edit_index" then (setIntPtrField d.editIndex kv.2).map (fun v => { d with editIndex := v })
      else if kv.1 = str "done" then (setBoolField d.done kv.2).map (fun v => { d with done := v })
      else some d)
    start

/-- The zero `ZaiData`. -/
def zeroZaiData : ZaiData := ⟨[], [], [], none, false⟩

/-- `json.Unmarshal` of a line payload into `domain.ZaiResponse`. -/
def decodeZai (payload : Str) : Option ZaiResponse := do
  let v ← parseJsonDoc payload
  match v with
  | JVal.jnull => pure ⟨none⟩
  | JVal.jobj fs =>
    fs.foldlM
      (fun (r : ZaiResponse) kv =>
        if kv.1 = str "data" then
          match kv.2 with
          | JVal.jnull => some r
          | JVal.jobj dfs =>
            (decodeZaiData (r.data.getD zeroZaiData) dfs).map (fun d => ⟨some d⟩)
          | _ => none
        else some r)
      ⟨none⟩
  | _ => none

/-- The `[DONE]` sentinel payload test. -/
def isSentinelPayload (payload : Str) : Bool :=
  trimSpace payload = str "[DONE]"

/-- One iteration of the `ParseSSEStream` read loop on one framed line:
`none` means the line is skipped, `some ev` means `ev` is sent on the
channel. -/
def sseLineEvent (line : Str) : Option ZaiResponse :=
  if line = [] ∨ ¬ hasPre line (str "data: ") = true then none
  else
    let payload := line.drop 6
    if isSentinelPayload payload then none
    else decodeZai payload

/-- The ordered event sequence `ParseSSEStream` emits for a framed line
sequence. -/
def parseSSELines (lines : List Str) : List ZaiResponse :=
  lines.filterMap sseLineEvent

/-! ## Response assemblers (`server/handlers.go`)
`zlmStreamResponse` and `zlmNonStreamResponse`, folded over the event
sequence.  Wall-clock ids/timestamps of the wire chunks are irrelevant to
the claims and are not modelled; the folds keep exactly the state the
source keeps. -/

/-- The tool-call assembler step of the streaming handler: append the
fragment to the buffer, re-parse the whole buffer, and on success emit the
ToolCall and clear the buffer. -/
def feedStep (buf frag : Str) : Option ToolCall × Str :=
  let b := buf ++ frag
  match parseToolCall b with
  | some tc => (some tc, [])
  | none => (none, b)

/-- State of `zlmStreamResponse`'s loop. -/
structure StreamSt where
  prev : Str
  parts : List Str
  buffer : Str
  pending : Option ToolCall
  emitted : List ToolCall
  deriving Repr

/-- Initial streaming state (fresh formatter, empty buffer). -/
def streamInit : StreamSt := ⟨initPrev, [], [], none, []⟩

/-- The usage fragments a delta contributes to `parts`
(`delta["content"]` then `delta["reasoning_content"]`). -/
def partsOf : Delta → List Str
  | Delta.contentD c => [c]
  | Delta.reasoningD r => [r]
  | Delta.toolCallD _ => []

/-- One iteration of `zlmStreamResponse`'s loop body. -/
def streamStep (cfg : Config) (iu : Bool) (st : StreamSt) (ev : ZaiResponse) :
    StreamSt :=
  match format cfg st.prev ev with
  | (none, prev') => { st with prev := prev' }
  | (some delta, prev') =>
    let parts' := if iu then st.parts ++ partsOf delta else st.parts
    match delta with
    | Delta.toolCallD frag =>
      match feedStep st.buffer frag with
      | (some tc, b') =>
        { prev := prev', parts := parts', buffer := b',
          pending := some tc, emitted := st.emitted ++ [tc] }
      | (none, b') =>
        { prev := prev', parts := parts', buffer := b',
          pending := st.pending, emitted := st.emitted }
    | _ => { st with prev := prev', parts := parts' }

/-- Run the streaming loop over the whole event sequence. -/
def streamRun (cfg : Config) (iu : Bool) (events : List ZaiResponse) : StreamSt :=
  events.foldl (streamStep cfg iu) streamInit

/-- The terminal chunk's finish_reason in `zlmStreamResponse`. -/
def streamFinishReason (cfg : Config) (iu : Bool) (events : List ZaiResponse) : Str :=
  if (streamRun cfg iu events).pending.isSome then str "tool_calls" else str "stop"

/-- The completion-token count of the streaming usage chunk, for a
tokenizer `cnt` (the source's tokenizer is the external tiktoken encoder
behind `utils.Tokener`; it enters the model as a function parameter). -/
def streamCompletionTokens (cnt : Str → Nat) (cfg : Config)
    (events : List ZaiResponse) : Nat :=
  cnt (((streamRun cfg true events).parts).foldr (fun a b => a ++ b) [])

/-- State of `zlmNonStreamResponse`'s loop. -/
structure AggSt where
  prev : Str
  contentParts : List Str
  reasoningParts : List Str
  buffer : Str
  deriving Repr

/-- Initial aggregate state. -/
def aggInit : AggSt := ⟨initPrev, [], [], []⟩

/-- One iteration of `zlmNonStreamResponse`'s loop body. -/
def aggStep (cfg : Config) (st : AggSt) (ev : ZaiResponse) : AggSt :=
  match format cfg st.prev ev with
  | (none, prev') => { st with prev := prev' }
  | (some delta, prev') =>
    match delta with
    | Delta.contentD c =>
      let c2 := stripToolCallBlock c
      let cp := if c2 ≠ [] then st.contentParts ++ [c2] else st.contentParts
      { st with prev := prev', contentParts := cp }
    | Delta.reasoningD r =>
      { st with prev := prev', reasoningParts := st.reasoningParts ++ [r] }
    | Delta.toolCallD tc =>
      { st with prev := prev', buffer := st.buffer ++ tc }

/-- Whether the loop breaks after this event (`zaiResp.Data != nil &&
zaiResp.Data.Done`). -/
def evDone (ev : ZaiResponse) : Bool :=
  match ev.data with
  | some d => d.done
  | none => false

/-- Run the aggregate loop: process each event, stopping after the first
event whose `done` flag is set. -/
def aggLoop (cfg : Config) : AggSt → List ZaiResponse → AggSt
  | st, [] => st
  | st, ev :: rest =>
    let st' := aggStep cfg st ev
    if evDone ev then st' else aggLoop cfg st' rest

/-- The ToolCalls of the final aggregate response: one final parse of the
accumulated buffer, when non-empty. -/
def aggToolCalls (cfg : Config) (events : List ZaiResponse) : List ToolCall :=
  let st := aggLoop cfg aggInit events
  if st.buffer ≠ [] then
    match parseToolCall st.buffer with
    | some tc => [tc]
    | none => []
  else []

/-- The final response's finish_reason in `zlmNonStreamResponse`. -/
def aggFinishReason (cfg : Config) (events : List ZaiResponse) : Str :=
  if aggToolCalls cfg events ≠ [] then str "tool_calls" else str "stop"

/-- The completion text of the aggregate usage: joined reasoning parts then
joined content parts. -/
def aggCompletionText (cfg : Config) (events : List ZaiResponse) : Str :=
  let st := aggLoop cfg aggInit events
  (st.reasoningParts.foldr (fun a b => a ++ b) []) ++
    (st.contentParts.foldr (fun a b => a ++ b) [])

/-- The aggregate usage's completion-token count for a tokenizer `cnt`. -/
def aggCompletionTokens (cnt : Str → Nat) (cfg : Config)
    (events : List ZaiResponse) : Nat :=
  cnt (aggCompletionText cfg events)

/-! ## Provider dispatch (`server.ChatCompletions`) -/

/-- After JSON decode and validation, `ChatCompletions` substitutes the
configured default model for an empty model field, then picks the first
provider whose `SupportsModel` accepts it; with no match it writes a 400
`unsupported model` error (modelled as the `none` result). -/
def dispatchModel (defaultModel : Str) (providers : List (Str → Bool))
    (reqModel : Str) : Option (Str → Bool) :=
  let eff := if reqModel = [] then defaultModel else reqModel
  providers.find? (fun p => p eff)

/-! ## Derived notions used by the statements -/

/-- Concatenation of a fragment list (`strings.Join parts ""`). -/
def joinStr (ps : List Str) : Str := ps.foldr (fun a b => a ++ b) []

/-- The effective phase of an event with payload `d`, given the previous
phase: the raw phase with `""` read as `other`, reclassified to
`tool_call` by the cross-chunk resumption rule. -/
def effectivePhase (prev : Str) (d : ZaiData) : Str :=
  let phase0 := if d.phase = [] then str "other" else d.phase
  let content0 := if d.deltaContent = [] then d.editContent else d.deltaContent
  if phase0 = str "tool_call" then phase0
  else if phase0 = str "other" ∧ prev = str "tool_call" ∧
          hasSub content0 (str "glm_block") = true then str "tool_call"
  else phase0

/-- Worker for `runFeed`. -/
def runFeedGo (emits : List ToolCall) (buf : Str) :
    List Str → List ToolCall × Str
  | [] => (emits, buf)
  | p :: rest =>
    match feedStep buf p with
    | (some tc, b') => runFeedGo (emits ++ [tc]) b' rest
    | (none, b') => runFeedGo emits b' rest

/-- Feed a sequence of fragments to the tool-call assembler starting from
an empty buffer; returns the emitted ToolCalls and the final buffer. -/
def runFeed (ps : List Str) : List ToolCall × Str := runFeedGo [] [] ps

/-- The deltas the formatter emits over an event sequence, threading
`prevPhase`. -/
def formatDeltas (cfg : Config) : Str → List ZaiResponse → List Delta
  | _, [] => []
  | prev, ev :: rest =>
    match format cfg prev ev with
    | (some d, prev') => d :: formatDeltas cfg prev' rest
    | (none, prev') => formatDeltas cfg prev' rest

/-- The content-key fragments of a delta sequence. -/
def contentFrags (ds : List Delta) : List Str :=
  ds.filterMap (fun d => match d with | Delta.contentD c => some c | _ => none)

/-- The reasoning-key fragments of a delta sequence. -/
def reasonFrags (ds : List Delta) : List Str :=
  ds.filterMap (fun d => match d with | Delta.reasoningD c => some c | _ => none)

/-- The usage fragments of a delta sequence, in emission order. -/
def partsList (ds : List Delta) : List Str :=
  ds.foldr (fun d acc => partsOf d ++ acc) []

/-- Token sum of a fragment list. -/
def sumCnt (cnt : Str → Nat) (ps : List Str) : Nat := (ps.map cnt).sum

/-- The formatter config with the default think mode. -/
def cfgDetails : Config := ⟨str "details"⟩

/-- The content fragments as the aggregate assembler stores them: stripped,
and dropped when stripping leaves them empty. -/
def aggContentList (ds : List Delta) : List Str :=
  ds.foldr
    (fun d acc =>
      match d with
      | Delta.contentD c =>
        (if stripToolCallBlock c ≠ [] then [stripToolCallBlock c] else []) ++ acc
      | _ => acc)
    []

/-- A complete tool-call block invoking `f` with an empty mcp payload. -/
def blockF : Str := str "<glm_block tool_call_name=\"f\">\x7b\x7d</glm_block>"

/-- A second complete tool-call block, invoking `g`. -/
def blockG : Str := str "<glm_block tool_call_name=\"g\">\x7b\x7d</glm_block>"

/-- The ToolCall `ParseToolCall` builds for `blockF` (id defaulted from the
modelled uuid, arguments defaulted to `{}`). -/
def tcF : ToolCall :=
  ⟨str "call_00000000-0", str "function", str "f", str "\x7b\x7d"⟩

/-! ## Supporting lemmas -/

theorem parse_nil : parseToolCall [] = none := rfl

theorem joinStr_nil : joinStr [] = [] := rfl

theorem joinStr_cons (a : Str) (t : List Str) : joinStr (a :: t) = a ++ joinStr t :=
  rfl

theorem joinStr_eq_nil {ps : List Str} (h : joinStr ps = []) : ∀ p ∈ ps, p = [] := by
  induction ps with
  | nil => intro p hp; cases hp
  | cons a t ih =>
    rw [joinStr_cons] at h
    rcases List.append_eq_nil.mp h with ⟨ha, ht⟩
    intro p hp
    rcases hp with _ | hp
    · exact ha
    · exact ih ht p (by assumption)

theorem fmtthink_toolcall (cfg : Config) (x : Str) :
    formatThinking cfg (str "tool_call") x = x := by
  have h : ¬ ((str "tool_call") = str "thinking" ∨
      ((str "tool_call") = str "answer" ∧ hasSub x (str "summary>") = true)) := by
    rintro (h | ⟨h, _⟩) <;> revert h <;> decide
  simp [formatThinking, h]

theorem format_contentD_ne (cfg : Config) (prev : Str) (ev : ZaiResponse) (c : Str) :
    (format cfg prev ev).1 = some (Delta.contentD c) → c ≠ [] := by
  intro h hc
  subst hc
  rcases ev with ⟨_ | d⟩
  · cases h
  · simp only [format] at h
    split_ifs at h <;> simp_all

theorem partsList_nil : partsList [] = [] := rfl

theorem partsList_cons (d : Delta) (ds : List Delta) :
    partsList (d :: ds) = partsOf d ++ partsList ds := rfl

theorem contentFrags_cons (d : Delta) (ds : List Delta) :
    contentFrags (d :: ds) =
      (match d with | Delta.contentD c => [c] | _ => []) ++ contentFrags ds := by
  rcases d with c | c | c <;> simp [contentFrags]

theorem reasonFrags_cons (d : Delta) (ds : List Delta) :
    reasonFrags (d :: ds) =
      (match d with | Delta.reasoningD c => [c] | _ => []) ++ reasonFrags ds := by
  rcases d with c | c | c <;> simp [reasonFrags]

theorem stream_inv (cfg : Config) (iu : Bool) (evs : List ZaiResponse) :
    ∀ st : StreamSt, (st.pending.isSome = true ↔ st.emitted ≠ []) →
      ((evs.foldl (streamStep cfg iu) st).pending.isSome = true ↔
        (evs.foldl (streamStep cfg iu) st).emitted ≠ []) := by
  induction evs with
  | nil => intro st h; exact h
  | cons ev rest ih =>
    intro st h
    simp only [List.foldl_cons]
    apply ih
    rcases hf : format cfg st.prev ev with ⟨od, prev'⟩
    rcases od with _ | d
    · simpa [streamStep, hf] using h
    · rcases d with c | c | c
      · simpa [streamStep, hf] using h
      · rcases hfd : feedStep st.buffer c with ⟨otc, b'⟩
        rcases otc with _ | tc
        · simpa [streamStep, hf, hfd] using h
        · simp [streamStep, hf, hfd]
      · simpa [streamStep, hf] using h

theorem stream_parts (cfg : Config) (evs : List ZaiResponse) :
    ∀ st : StreamSt, (evs.foldl (streamStep cfg true) st).parts =
      st.parts ++ partsList (formatDeltas cfg st.prev evs) := by
  induction evs with
  | nil => intro st; simp [formatDeltas, partsList_nil]
  | cons ev rest ih =>
    intro st
    simp only [List.foldl_cons]
    rcases hf : format cfg st.prev ev with ⟨od, prev'⟩
    rcases od with _ | d
    · have hst : streamStep cfg true st ev = { st with prev := prev' } := by
        simp [streamStep, hf]
      rw [hst, ih]
      simp [formatDeltas, hf]
    · have hd : formatDeltas cfg st.prev (ev :: rest) =
          d :: formatDeltas cfg prev' rest := by
        simp [formatDeltas, hf]
      rw [hd, partsList_cons]
      rcases d with c | c | c
      · have hst : streamStep cfg true st ev =
            { st with prev := prev', parts := st.parts ++ [c] } := by
          simp [streamStep, hf, partsOf]
        rw [hst, ih]
        simp [partsOf]
      · rcases hfd : feedStep st.buffer c with ⟨otc, b'⟩
        rcases otc with _ | tc
        · have hst : streamStep cfg true st ev =
              { st with prev := prev', parts := st.parts ++ partsOf (Delta.toolCallD c), buffer := b' } := by
            simp [streamStep, hf, hfd]
          rw [hst, ih]
          simp [partsOf]
        · have hst : streamStep cfg true st ev =
              { prev := prev', parts := st.parts ++ partsOf (Delta.toolCallD c), buffer := b', pending := some tc, emitted := st.emitted ++ [tc] } := by
            simp [streamStep, hf, hfd]
          rw [hst, ih]
          simp [partsOf]
      · have hst : streamStep cfg true st ev =
            { st with prev := prev', parts := st.parts ++ [c] } := by
          simp [streamStep, hf, partsOf]
        rw [hst, ih]
        simp [partsOf]

theorem aggLoop_eq_foldl (cfg : Config) (evs : List ZaiResponse) :
    ∀ st : AggSt, (∀ ev ∈ evs, evDone ev = false) →
      aggLoop cfg st evs = evs.foldl (aggStep cfg) st := by
  induction evs with
  | nil => intro st _; rfl
  | cons ev rest ih =>
    intro st hnd
    have hde : evDone ev = false := hnd ev (List.mem_cons_self ev rest)
    show (let st' := aggStep cfg st ev
          if evDone ev then st' else aggLoop cfg st' rest) = _
    rw [hde]
    simp only [List.foldl_cons, Bool.false_eq_true, if_false]
    exact ih (aggStep cfg st ev) (fun e he => hnd e (List.mem_cons_of_mem _ he))

theorem agg_parts (cfg : Config) (evs : List ZaiResponse) :
    ∀ st : AggSt,
      (evs.foldl (aggStep cfg) st).reasoningParts =
        st.reasoningParts ++ reasonFrags (formatDeltas cfg st.prev evs) ∧
      (evs.foldl (aggStep cfg) st).contentParts =
        st.contentParts ++ aggContentList (formatDeltas cfg st.prev evs) := by
  induction evs with
  | nil => intro st; simp [formatDeltas, reasonFrags, aggContentList]
  | cons ev rest ih =>
    intro st
    simp only [List.foldl_cons]
    rcases hf : format cfg st.prev ev with ⟨od, prev'⟩
    rcases od with _ | d
    · have hst : aggStep cfg st ev = { st with prev := prev' } := by
        simp [aggStep, hf]
      rw [hst]
      have := ih { st with prev := prev' }
      simp only at this
      rw [this.1, this.2]
      simp [formatDeltas, hf]
    · have hd : formatDeltas cfg st.prev (ev :: rest) =
          d :: formatDeltas cfg prev' rest := by
        simp [formatDeltas, hf]
      rw [hd]
      rcases d with c | c | c
      · have hst : aggStep cfg st ev =
            { st with prev := prev', reasoningParts := st.reasoningParts ++ [c] } := by
          simp [aggStep, hf]
        rw [hst]
        have := ih { st with prev := prev', reasoningParts := st.reasoningParts ++ [c] }
        simp only at this
        rw [this.1, this.2]
        constructor
        · simp [reasonFrags]
        · simp [aggContentList]
      · have hst : aggStep cfg st ev =
            { st with prev := prev', buffer := st.buffer ++ c } := by
          simp [aggStep, hf]
        rw [hst]
        have := ih { st with prev := prev', buffer := st.buffer ++ c }
        simp only at this
        rw [this.1, this.2]
        constructor
        · simp [reasonFrags]
        · simp [aggContentList]
      · have hst : aggStep cfg st ev =
            { st with prev := prev', contentParts := st.contentParts ++ (if stripToolCallBlock c ≠ [] then [stripToolCallBlock c] else []) } := by
          by_cases hc : stripToolCallBlock c ≠ [] <;> simp [aggStep, hf, hc]
        rw [hst]
        have := ih { st with prev := prev', contentParts := st.contentParts ++ (if stripToolCallBlock c ≠ [] then [stripToolCallBlock c] else []) }
        simp only at this
        rw [this.1, this.2]
        constructor
        · simp [reasonFrags]
        · simp [aggContentList]

theorem cnt_join (cnt : Str → Nat) (hAdd : ∀ a b, cnt (a ++ b) = cnt a + cnt b) :
    ∀ l : List Str, cnt (joinStr l) = sumCnt cnt l := by
  have hzero : cnt [] = 0 := by
    have := hAdd [] []
    simp only [List.append_nil] at this
    omega
  intro l
  induction l with
  | nil => simpa [joinStr, sumCnt] using hzero
  | cons a t ih =>
    rw [joinStr_cons, hAdd, ih]
    simp [sumCnt]

theorem sum_parts_split (cnt : Str → Nat) :
    ∀ ds : List Delta,
      sumCnt cnt (partsList ds) =
        sumCnt cnt (reasonFrags ds) + sumCnt cnt (contentFrags ds) := by
  intro ds
  induction ds with
  | nil => rfl
  | cons d t ih =>
    rw [partsList_cons, contentFrags_cons, reasonFrags_cons]
    rcases d with c | c | c <;> simp only [partsOf] <;>
      simp [sumCnt] at ih ⊢ <;> omega

theorem aggContentList_eq (ds : List Delta)
    (hStrip : ∀ c ∈ contentFrags ds, stripToolCallBlock c = c)
    (hne : ∀ c ∈ contentFrags ds, c ≠ []) :
    aggContentList ds = contentFrags ds := by
  induction ds with
  | nil => rfl
  | cons d t ih =>
    rcases d with c | c | c
    · show aggContentList t = _
      rw [contentFrags_cons]
      exact ih (fun x hx => hStrip x (by rw [contentFrags_cons]; simpa using hx))
        (fun x hx => hne x (by rw [contentFrags_cons]; simpa using hx))
    · show aggContentList t = _
      rw [contentFrags_cons]
      exact ih (fun x hx => hStrip x (by rw [contentFrags_cons]; simpa using hx))
        (fun x hx => hne x (by rw [contentFrags_cons]; simpa using hx))
    · have hc : c ∈ contentFrags (Delta.contentD c :: t) := by
        rw [contentFrags_cons]; simp
      have hs := hStrip c hc
      have hn := hne c hc
      show (if stripToolCallBlock c ≠ [] then [stripToolCallBlock c] else []) ++ aggContentList t = _
      rw [contentFrags_cons, hs, if_pos hn]
      have := ih (fun x hx => hStrip x (by rw [contentFrags_cons]; simp [hx]))
        (fun x hx => hne x (by rw [contentFrags_cons]; simp [hx]))
      simp [this]

theorem formatDeltas_content_ne (cfg : Config) :
    ∀ (evs : List ZaiResponse) (prev : Str) (c : Str),
      Delta.contentD c ∈ formatDeltas cfg prev evs → c ≠ [] := by
  intro evs
  induction evs with
  | nil => intro prev c h; cases h
  | cons ev rest ih =>
    intro prev c h
    rcases hf : format cfg prev ev with ⟨od, prev'⟩
    rcases od with _ | d
    · rw [show formatDeltas cfg prev (ev :: rest) = formatDeltas cfg prev' rest
        from by simp [formatDeltas, hf]] at h
      exact ih prev' c h
    · rw [show formatDeltas cfg prev (ev :: rest) = d :: formatDeltas cfg prev' rest
        from by simp [formatDeltas, hf]] at h
      rcases h with _ | h
      · exact format_contentD_ne cfg prev ev c (by rw [hf])
      · exact ih prev' c (by assumption)

theorem runFeedGo_empties (ps : List Str) : ∀ emits, (∀ p ∈ ps, p = []) →
    runFeedGo emits [] ps = (emits, []) := by
  induction ps with
  | nil => intro emits _; rfl
  | cons a t ih =>
    intro emits hall
    have ha : a = [] := hall a (List.mem_cons_self a t)
    subst ha
    show (match feedStep [] [] with
      | (some tc, b') => runFeedGo (emits ++ [tc]) b' t
      | (none, b') => runFeedGo emits b' t) = (emits, [])
    have hfs : feedStep [] [] = (none, []) := by rfl
    rw [hfs]
    exact ih emits (fun p hp => hall p (List.mem_cons_of_mem _ hp))

theorem runFeed_partition (B : Str) (tc : ToolCall)
    (hB : parseToolCall B = some tc)
    (hpre : ∀ n, n < B.length → parseToolCall (B.take n) = none) :
    ∀ (ps : List Str) (b : Str), b ++ joinStr ps = B → b ≠ B →
      runFeedGo [] b ps = ([tc], []) := by
  intro ps
  induction ps with
  | nil =>
    intro b hj hb
    rw [joinStr_nil, List.append_nil] at hj
    exact absurd hj hb
  | cons p rest ih =>
    intro b hj hb
    rw [joinStr_cons, ← List.append_assoc] at hj
    by_cases hbp : b ++ p = B
    · have hjr : joinStr rest = [] := by
        have h' : (b ++ p) ++ joinStr rest = (b ++ p) ++ [] := by
          rw [List.append_nil, hj, hbp]
        exact List.append_cancel_left h'
      show (match feedStep b p with
        | (some tc, b') => runFeedGo ([] ++ [tc]) b' rest
        | (none, b') => runFeedGo [] b' rest) = ([tc], [])
      have hfs : feedStep b p = (some tc, []) := by
        rw [feedStep, hbp, hB]
      rw [hfs]
      simp only [List.nil_append]
      exact runFeedGo_empties rest [tc] (joinStr_eq_nil hjr)
    · have hjrne : joinStr rest ≠ [] := by
        intro h; rw [h, List.append_nil] at hj; exact hbp hj
      have hlt : (b ++ p).length < B.length := by
        rw [← hj]
        simp only [List.length_append]
        have := List.length_pos.mpr hjrne
        omega
      have htake : B.take (b ++ p).length = b ++ p := by
        rw [← hj]; exact List.take_left (b ++ p) (joinStr rest)
      have hparse : parseToolCall (b ++ p) = none := by
        have := hpre (b ++ p).length hlt
        rwa [htake] at this
      show (match feedStep b p with
        | (some tc, b') => runFeedGo ([] ++ [tc]) b' rest
        | (none, b') => runFeedGo [] b' rest) = ([tc], [])
      have hfs : feedStep b p = (none, b ++ p) := by
        rw [feedStep, hparse]
      rw [hfs]
      exact ih (b ++ p) hj hbp

theorem glmFindSplit_spec : ∀ (s pre n p r : Str),
    glmFindSplit s = some (pre, n, p, r) →
      (∀ i, i < pre.length → glmMatchAt (s.drop i) = none) ∧
      glmMatchAt (s.drop pre.length) = some (n, p, r) := by
  intro s
  induction s with
  | nil => intro pre n p r h; cases h
  | cons c tl ih =>
    intro pre n p r h
    rcases h0 : glmMatchAt (c :: tl) with _ | ⟨n0, p0, r0⟩
    · rw [show glmFindSplit (c :: tl) =
          (match glmFindSplit tl with
           | some (pre, name, payload, rest) => some (c :: pre, name, payload, rest)
           | none => none) from by simp [glmFindSplit, h0]] at h
      rcases h1 : glmFindSplit tl with _ | ⟨pre', n', p', r'⟩
      · rw [h1] at h; cases h
      · rw [h1] at h
        cases h
        have := ih pre' n p r h1
        constructor
        · intro i hi
          cases i with
          | zero => simpa using h0
          | succ j =>
            simp only [List.length_cons, Nat.succ_lt_succ_iff] at hi
            simpa using this.1 j hi
        · simpa using this.2
    · rw [show glmFindSplit (c :: tl) = some ([], n0, p0, r0) from by
        simp [glmFindSplit, h0]] at h
      cases h
      constructor
      · intro i hi; cases hi
      · simpa using h0


/-! ## Claim theorems -/

/-- C1, counterexample: an `answer`-phase event with empty `delta_content`
and `edit_content` yields no delta, and `Format` returns before the
`prevPhase` assignment, so the previous-phase memory stays at its initial
`"thinking"` instead of the event's effective phase `"answer"`.  This
refutes the claim that no code path through `Format` skips the `prevPhase`
update. -/
theorem c1_prevphase_skipped_cex :
    (format cfgDetails initPrev ⟨some ⟨str "answer", [], [], none, false⟩⟩).1 = none ∧
    (format cfgDetails initPrev ⟨some ⟨str "answer", [], [], none, false⟩⟩).2 = initPrev ∧
    effectivePhase initPrev ⟨str "answer", [], [], none, false⟩ = str "answer" ∧
    (format cfgDetails initPrev ⟨some ⟨str "answer", [], [], none, false⟩⟩).2 ≠
      effectivePhase initPrev ⟨str "answer", [], [], none, false⟩ := by
  decide

/-- C1, amended: `prevPhase` is updated to the event's effective phase for
every processed event that carries content (non-nil data and a non-empty
`delta_content` or `edit_content`); events with nil data or with both
content fields empty return early and leave `prevPhase` unchanged. -/
theorem c1_prevphase_update : ∀ (cfg : Config) (prev : Str) (ev : ZaiResponse),
    (format cfg prev ev).2 =
      (match ev.data with
       | none => prev
       | some d =>
         if d.deltaContent = [] ∧ d.editContent = [] then prev
         else effectivePhase prev d) := by
  intro cfg prev ev
  rcases ev with ⟨_ | ⟨ph, dc, ec, ei, dn⟩⟩
  · rfl
  · simp only [format, effectivePhase]
    by_cases h1 : dc = ([] : Str) <;> by_cases h2 : ec = ([] : Str) <;>
      simp [h1, h2] <;> split_ifs <;> simp_all

/-- C2: the thinking-phase event
`<details>\n<summary>x</summary>\nreason</details>` under think mode
`think` emits a content delta whose text is `<think>`/`</think>` wrapping
`reason`, with the summary block removed. -/
theorem c2_think_scenario :
    (format ⟨str "think"⟩ initPrev
      ⟨some ⟨str "thinking",
        str "<details>\n<summary>x</summary>\nreason</details>", [], none, false⟩⟩).1 =
      some (Delta.contentD
        (str "<think>" ++ str "\n\nreason\n\n" ++ str "</think>")) ∧
    hasSub (str "<think>\n\nreason\n\n</think>") (str "<think>") = true ∧
    hasSub (str "<think>\n\nreason\n\n</think>") (str "</think>") = true ∧
    hasSub (str "<think>\n\nreason\n\n</think>") (str "reason") = true ∧
    hasSub (str "<think>\n\nreason\n\n</think>") (str "<summary>") = false := by
  decide

/-- C3, counterexample: under think mode `reasoning`, the thinking-phase
event `<details>\nabc</details>` is emitted under `reasoning_content`, but
the `<reasoning>`/`</reasoning>` wrapper tags (rewritten from
`<details>`) are still present in the emitted delta — the per-request
`Formatter`'s `reasoning` case performs no wrapper removal, refuting the
claim that the tags are removed entirely. -/
theorem c3_reasoning_tags_kept_cex :
    (format ⟨str "reasoning"⟩ initPrev
      ⟨some ⟨str "thinking", str "<details>\nabc</details>", [], none, false⟩⟩).1 =
      some (Delta.reasoningD (str "<reasoning>\n\nabc\n\n</reasoning>")) ∧
    hasSub (str "<reasoning>\n\nabc\n\n</reasoning>") (str "<reasoning>") = true ∧
    hasSub (str "<reasoning>\n\nabc\n\n</reasoning>") (str "</reasoning>") = true := by
  decide

/-- C3, amended: for every thinking-phase event under think mode
`reasoning`, the normalizer strips the wrapper literals, collapses the
summary block, converts `<details>`/`</details>` to
`<reasoning>`/`</reasoning>`, strips quote-prefix markers, strips any
residual summary block, and emits the result under the `reasoning_content`
key — but it leaves the `<reasoning>`/`</reasoning>` wrapper tags in
place. -/
theorem c3_reasoning_mode : ∀ (prev : Str) (d : ZaiData),
    d.phase = str "thinking" → d.deltaContent ≠ [] →
    format ⟨str "reasoning"⟩ prev ⟨some d⟩ =
      (some (Delta.reasoningD (applySummary []
        (applyQuoteRule (applyDetailsClose (applyDetailsOpen
          (applySummary (str "\n\n")
            (replaceAllLit (str "</Full>") []
              (replaceAllLit (str "<Full>") []
                (replaceAllLit (str "</thinking>") [] d.deltaContent))))))))),
       str "thinking") := by
  intro prev d hph hdc
  rcases d with ⟨ph, dc, ec, ei, dn⟩
  simp only at hph hdc
  subst hph
  simp [format, formatThinking, hdc,
    (by decide : ¬ (str "thinking" = ([] : Str))),
    (by decide : ¬ (str "thinking" = str "tool_call")),
    (by decide : ¬ (str "thinking" = str "other"))]

/-- C3 witness: the amended theorem applied to the concrete event of the
counterexample. -/
theorem c3_reasoning_mode_witness :
    format ⟨str "reasoning"⟩ initPrev
      ⟨some ⟨str "thinking", str "<details>\nabc</details>", [], none, false⟩⟩ =
      (some (Delta.reasoningD (applySummary []
        (applyQuoteRule (applyDetailsClose (applyDetailsOpen
          (applySummary (str "\n\n")
            (replaceAllLit (str "</Full>") []
              (replaceAllLit (str "<Full>") []
                (replaceAllLit (str "</thinking>") []
                  (str "<details>\nabc</details>")))))))))),
       str "thinking") :=
  c3_reasoning_mode initPrev
    ⟨str "thinking", str "<details>\nabc</details>", [], none, false⟩
    rfl (by decide)

/-- C4: an `other`-phase event arriving while `prevPhase` is `tool_call`
whose content still contains the `glm_block` token is reclassified as a
`tool_call` event: the trailing display_result pattern is rewritten into
the closing quote-and-brace, the delta is emitted as a tool-call fragment,
and `prevPhase` is set to `tool_call`. -/
theorem c4_other_reclassified : ∀ (cfg : Config) (prev : Str) (d : ZaiData),
    d.phase = str "other" → prev = str "tool_call" →
    hasSub d.deltaContent (str "glm_block") = true →
    format cfg prev ⟨some d⟩ =
      (some (Delta.toolCallD (applyGlmClose d.deltaContent)), str "tool_call") := by
  intro cfg prev d hph hprev hc
  subst hprev
  rcases d with ⟨ph, dc, ec, ei, dn⟩
  simp only at hph hc
  subst hph
  have hdc : dc ≠ [] := by
    intro h; subst h; revert hc; decide
  simp [format, hdc, hc, fmtthink_toolcall,
    (by decide : ¬ (str "other" = ([] : Str))),
    (by decide : ¬ (str "other" = str "tool_call")),
    (by decide : ¬ (str "tool_call" = str "thinking"))]

/-- C4 witness: the reclassification applied to a concrete resumed
fragment carrying the display_result tail. -/
theorem c4_other_reclassified_witness :
    format cfgDetails (str "tool_call")
      ⟨some ⟨str "other",
        str "null, \x22display_result\x22: \x22\x22 tail</glm_block>", [], none, false⟩⟩ =
      (some (Delta.toolCallD (applyGlmClose
        (str "null, \x22display_result\x22: \x22\x22 tail</glm_block>"))),
       str "tool_call") :=
  c4_other_reclassified cfgDetails (str "tool_call")
    ⟨str "other", str "null, \x22display_result\x22: \x22\x22 tail</glm_block>", [], none, false⟩
    rfl rfl (by decide)


/-- C5: the stream assembler's terminal chunk and the aggregate assembler's
final response carry `finish_reason = "tool_calls"` exactly when at least
one ToolCall was emitted (successfully parsed) during the request, and
`"stop"` otherwise. -/
theorem c5_finish_reason : ∀ (cfg : Config) (iu : Bool) (events : List ZaiResponse),
    (streamFinishReason cfg iu events = str "tool_calls" ↔
      (streamRun cfg iu events).emitted ≠ []) ∧
    (streamFinishReason cfg iu events = str "stop" ↔
      (streamRun cfg iu events).emitted = []) ∧
    (aggFinishReason cfg events = str "tool_calls" ↔
      aggToolCalls cfg events ≠ []) ∧
    (aggFinishReason cfg events = str "stop" ↔
      aggToolCalls cfg events = []) := by
  intro cfg iu events
  have hinv : ((streamRun cfg iu events).pending.isSome = true ↔
      (streamRun cfg iu events).emitted ≠ []) :=
    stream_inv cfg iu events streamInit (by simp [streamInit])
  have hsf : streamFinishReason cfg iu events =
      (if (streamRun cfg iu events).pending.isSome then str "tool_calls"
       else str "stop") := rfl
  refine ⟨?_, ?_, ?_, ?_⟩
  · by_cases hp : (streamRun cfg iu events).pending.isSome = true
    · rw [hsf, if_pos hp]
      exact ⟨fun _ => hinv.mp hp, fun _ => rfl⟩
    · have he : (streamRun cfg iu events).emitted = [] := by
        by_contra hne; exact hp (hinv.mpr hne)
      rw [hsf, if_neg hp]
      exact ⟨fun h => absurd h (by decide), fun h => absurd he h⟩
  · by_cases hp : (streamRun cfg iu events).pending.isSome = true
    · rw [hsf, if_pos hp]
      exact ⟨fun h => absurd h (by decide), fun h => absurd (hinv.mp hp) (by simp [h])⟩
    · have he : (streamRun cfg iu events).emitted = [] := by
        by_contra hne; exact hp (hinv.mpr hne)
      rw [hsf, if_neg hp]
      exact ⟨fun _ => he, fun _ => rfl⟩
  · unfold aggFinishReason
    by_cases h : aggToolCalls cfg events ≠ []
    · rw [if_pos h]; exact ⟨fun _ => h, fun _ => rfl⟩
    · rw [if_neg h]
      exact ⟨fun hh => absurd hh (by decide), fun hh => absurd hh h⟩
  · unfold aggFinishReason
    by_cases h : aggToolCalls cfg events ≠ []
    · rw [if_pos h]
      exact ⟨fun hh => absurd hh (by decide), fun hh => absurd hh h⟩
    · rw [if_neg h]
      exact ⟨fun _ => by simpa using h, fun _ => rfl⟩

/-- C6: feeding a complete tool-call block to the assembler as one
fragment or as any in-order partition into substrings yields the same
emitted ToolCall (and the same cleared buffer), because each feed re-parses
the full accumulated buffer: no proper prefix of the block parses, so
nothing is emitted until the block is complete. -/
theorem c6_split_invariance (B : Str) (tc : ToolCall) (ps : List Str)
    (hB : parseToolCall B = some tc)
    (hpre : ∀ n, n < B.length → parseToolCall (B.take n) = none)
    (hj : joinStr ps = B) :
    runFeed ps = runFeed [B] ∧ runFeed ps = ([tc], []) := by
  have hBne : B ≠ [] := by
    intro h; subst h; rw [parse_nil] at hB; cases hB
  have hL : runFeed ps = ([tc], []) := by
    unfold runFeed
    exact runFeed_partition B tc hB hpre ps [] (by simpa using hj) (Ne.symm hBne)
  have hR : runFeed [B] = ([tc], []) := by
    unfold runFeed
    show (match feedStep [] B with
      | (some tc, b') => runFeedGo ([] ++ [tc]) b' []
      | (none, b') => runFeedGo [] b' []) = ([tc], [])
    have hfs : feedStep [] B = (some tc, []) := by
      rw [feedStep]; simp only [List.nil_append]; rw [hB]
    rw [hfs]
    rfl
  exact ⟨hL.trans hR.symm, hL⟩

/-- C6 witness: the block for `f` split into three fragments, one of them
cutting the markup mid-token, emits the same ToolCall as the whole block
fed at once. -/
theorem c6_split_invariance_witness :
    runFeed [str "<glm_bl", str "ock tool_call_name=\x22f\x22>\x7b",
      str "\x7d</glm_block>"] = runFeed [blockF] ∧
    runFeed [str "<glm_bl", str "ock tool_call_name=\x22f\x22>\x7b",
      str "\x7d</glm_block>"] = ([tcF], []) :=
  c6_split_invariance blockF tcF
    [str "<glm_bl", str "ock tool_call_name=\x22f\x22>\x7b", str "\x7d</glm_block>"]
    (by decide) (by decide) (by decide)


/-- C7, counterexample: with the tokenizer instantiated as the per-rune
count (`List.length`, a legitimate `count(text) -> integer` collaborator),
the event sequence `[answer "a" (done), answer "b"]` yields completion
count 2 in the stream assembler but 1 in the aggregate assembler: the
aggregate loop breaks after the `done` event while the stream loop keeps
consuming, so the two usage figures differ for an identical upstream event
sequence. -/
theorem c7_usage_diverges_cex :
    streamCompletionTokens List.length cfgDetails
      [⟨some ⟨str "answer", str "a", [], none, true⟩⟩,
       ⟨some ⟨str "answer", str "b", [], none, false⟩⟩] = 2 ∧
    aggCompletionTokens List.length cfgDetails
      [⟨some ⟨str "answer", str "a", [], none, true⟩⟩,
       ⟨some ⟨str "answer", str "b", [], none, false⟩⟩] = 1 ∧
    (2 : Nat) ≠ 1 := by
  decide

/-- C7, amended: the stream and aggregate completion-token counts agree for
a tokenizer that is additive over concatenation, provided no event carries
the `done` flag (the aggregate loop would stop early) and no emitted
content fragment is changed by `StripToolCallBlock` (the aggregate strips
before counting, the stream counts the unstripped fragment). -/
theorem c7_usage_equality (cnt : Str → Nat) (cfg : Config)
    (events : List ZaiResponse)
    (hAdd : ∀ a b, cnt (a ++ b) = cnt a + cnt b)
    (hND : ∀ ev ∈ events, evDone ev = false)
    (hStrip : ∀ c ∈ contentFrags (formatDeltas cfg initPrev events),
      stripToolCallBlock c = c) :
    streamCompletionTokens cnt cfg events = aggCompletionTokens cnt cfg events := by
  have hne : ∀ c ∈ contentFrags (formatDeltas cfg initPrev events), c ≠ [] := by
    intro c hc
    apply formatDeltas_content_ne cfg events initPrev c
    revert hc
    generalize formatDeltas cfg initPrev events = ds
    intro hc
    induction ds with
    | nil => cases hc
    | cons d t iht =>
      rcases d with x | x | x
      · exact List.mem_cons_of_mem _ (iht (by simpa [contentFrags_cons] using hc))
      · exact List.mem_cons_of_mem _ (iht (by simpa [contentFrags_cons] using hc))
      · rw [contentFrags_cons] at hc
        rcases List.mem_append.mp hc with hx | hx
        · simp at hx; subst hx; exact List.mem_cons_self _ _
        · exact List.mem_cons_of_mem _ (iht hx)
  have hparts : (streamRun cfg true events).parts =
      partsList (formatDeltas cfg initPrev events) := by
    have := stream_parts cfg events streamInit
    simpa [streamInit] using this
  have hagg := agg_parts cfg events aggInit
  have haggL : aggLoop cfg aggInit events = events.foldl (aggStep cfg) aggInit :=
    aggLoop_eq_foldl cfg events aggInit hND
  have hreas : (aggLoop cfg aggInit events).reasoningParts =
      reasonFrags (formatDeltas cfg initPrev events) := by
    rw [haggL]
    simpa [aggInit] using hagg.1
  have hcont : (aggLoop cfg aggInit events).contentParts =
      contentFrags (formatDeltas cfg initPrev events) := by
    rw [haggL, hagg.2]
    show ([] : List Str) ++ aggContentList (formatDeltas cfg initPrev events) = _
    simpa using aggContentList_eq _ hStrip hne
  show cnt (joinStr (streamRun cfg true events).parts) = _
  rw [hparts, cnt_join cnt hAdd, sum_parts_split]
  have hright : aggCompletionTokens cnt cfg events =
      cnt (joinStr (aggLoop cfg aggInit events).reasoningParts ++
        joinStr (aggLoop cfg aggInit events).contentParts) := rfl
  rw [hright, hAdd, hreas, hcont, cnt_join cnt hAdd, cnt_join cnt hAdd]

/-- C7 witness: the amended equality at a concrete done-free sequence with
a reasoning and a content fragment, under the additive per-rune
tokenizer. -/
theorem c7_usage_equality_witness :
    streamCompletionTokens List.length cfgDetails
      [⟨some ⟨str "answer", str "hi", [], none, false⟩⟩,
       ⟨some ⟨str "answer", str "there", [], none, false⟩⟩] =
    aggCompletionTokens List.length cfgDetails
      [⟨some ⟨str "answer", str "hi", [], none, false⟩⟩,
       ⟨some ⟨str "answer", str "there", [], none, false⟩⟩] :=
  c7_usage_equality List.length cfgDetails
    [⟨some ⟨str "answer", str "hi", [], none, false⟩⟩,
     ⟨some ⟨str "answer", str "there", [], none, false⟩⟩]
    (fun a b => List.length_append a b) (by decide) (by decide)

/-- C8, counterexample: a decodable event line after a `data: [DONE]`
sentinel line is still emitted — the read loop `continue`s on the sentinel
instead of terminating the iteration, refuting the claim that no further
events are emitted after it. -/
theorem c8_sentinel_not_terminating_cex :
    parseSSELines [str "data: [DONE]",
      str "data: \x7b\x22data\x22: \x7b\x22phase\x22: \x22answer\x22, \x22delta_content\x22: \x22x\x22\x7d\x7d"] =
      [⟨some ⟨str "answer", str "x", [], none, false⟩⟩] ∧
    parseSSELines [str "data: [DONE]",
      str "data: \x7b\x22data\x22: \x7b\x22phase\x22: \x22answer\x22, \x22delta_content\x22: \x22x\x22\x7d\x7d"] ≠ [] := by
  decide

/-- C8, amended: the `data: [DONE]` sentinel line is skipped without
emitting an event, but it does not terminate the iteration: the events of
the surrounding lines are emitted exactly as if the sentinel line were
absent, and iteration ends only when the underlying line sequence does. -/
theorem c8_sentinel_skip : ∀ pre post : List Str,
    parseSSELines (pre ++ (str "data: [DONE]") :: post) =
      parseSSELines pre ++ parseSSELines post := by
  intro pre post
  unfold parseSSELines
  rw [List.filterMap_append, List.filterMap_cons]
  have hs : sseLineEvent (str "data: [DONE]") = none := by rfl
  rw [hs]

/-- C9: when the accumulated buffer plus the new fragment parses, the
ToolCall is built from the leftmost `glmBlockRegex` match (every earlier
start position fails to match, and the function name is the match's first
capture), and the streaming handler's feed step emits that ToolCall and
resets the whole buffer to empty — discarding everything after the first
block, including any further complete blocks. -/
theorem c9_first_block (buf frag : Str) (tc : ToolCall)
    (h : parseToolCall (buf ++ frag) = some tc) :
    feedStep buf frag = (some tc, []) ∧
    ∃ pre name payload rest,
      glmFindSplit (buf ++ frag) = some (pre, name, payload, rest) ∧
      (∀ i, i < pre.length → glmMatchAt ((buf ++ frag).drop i) = none) ∧
      glmMatchAt ((buf ++ frag).drop pre.length) = some (name, payload, rest) ∧
      tc.name = name := by
  constructor
  · rw [feedStep, h]
  · rcases hfind : glmFindSplit (buf ++ frag) with _ | ⟨pre, n, p, r⟩
    · rw [parseToolCall, hfind] at h; cases h
    · rcases hdw : decodeWrapper p with _ | m
      · rw [parseToolCall, hfind] at h
        simp only at h
        rw [hdw] at h; cases h
      · refine ⟨pre, n, p, r, rfl, (glmFindSplit_spec _ _ _ _ _ hfind).1,
          (glmFindSplit_spec _ _ _ _ _ hfind).2, ?_⟩
        rw [parseToolCall, hfind] at h
        simp only at h
        rw [hdw] at h
        simp only [Option.some.injEq] at h
        rw [← h]

/-- C9 witness: a buffer holding two complete blocks (`f` then `g`) parses
to the ToolCall of the first block and the feed step clears the buffer, so
the `g` block is never emitted. -/
theorem c9_first_block_witness :
    feedStep [] (blockF ++ blockG) = (some tcF, []) :=
  (c9_first_block [] (blockF ++ blockG) tcF (by decide)).1

/-- C10: after an empty request model is replaced by the configured
default, dispatch behaves as if the default had been requested, and the 400
`unsupported model` outcome occurs exactly when no provider's
`SupportsModel` accepts the (possibly substituted) model. -/
theorem c10_model_dispatch : ∀ (defM : Str) (provs : List (Str → Bool)) (reqM : Str),
    dispatchModel defM provs [] = dispatchModel defM provs defM ∧
    (dispatchModel defM provs reqM = none ↔
      ∀ p ∈ provs, p (if reqM = [] then defM else reqM) = false) := by
  intro defM provs reqM
  constructor
  · simp [dispatchModel]
  · simp [dispatchModel, List.find?_eq_none]


end Mo
